import Mathlib

/-!
Verification development for the Graphix cross-indexer consistency monitor.

The definitions below are a shallow embedding of the core of the repository:
the indexer identity and deduplication logic (`src/crates/graphix/src/main.rs`,
`src/backend/crates/common/src/indexer/types.rs`), the indexing loop
(`src/crates/graphix_lib/src/indexing_loop.rs`), the `Bytes32` hex
encoding/decoding (`src/common/src/types.rs`), and the divergence bisection
algorithm (modelled from the specification, as its implementation is not among
the provided sources).  Machine integers are modelled as `Nat` (all the
quantities involved are unsigned and no arithmetic here can overflow a `u64`
in the source); fallible operations return `Option` or `Except`.
-/

namespace Graphix

/-- An indexer identity: a stable string id and an optional on-chain address
(20 opaque bytes, modelled as a list of naturals).  Mirrors the `Indexer`
trait of `src/backend/crates/common/src/indexer/types.rs` (`id()`,
`address()`). -/
structure Indexer where
  id : String
  address : Option (List Nat)
deriving DecidableEq, Repr

/-- The `PartialEq for dyn Indexer` impl of
`src/backend/crates/common/src/indexer/types.rs`: equality compares the `id`
strings only. -/
def indexerEq (a b : Indexer) : Bool :=
  a.id == b.id

/-- The `Hash for dyn Indexer` impl: it hashes exactly the `id` string, so for
any hasher `h` on strings the indexer hash is `h` applied to the id. -/
def indexerHash (h : String → Nat) (a : Indexer) : Nat :=
  h a.id

/-- The equality on indexers that the specification describes: equal iff the
addresses are equal, or iff the ids are equal when both addresses are absent. -/
def specIndexerEq (a b : Indexer) : Bool :=
  match a.address, b.address with
  | some x, some y => x == y
  | none, none => a.id == b.id
  | _, _ => false

/-- A block pointer `(number, optional 32-byte hash)`
(`src/common/src/types.rs`, `BlockPointer`). -/
structure BlockPointer where
  number : Nat
  hash : Option (List Nat)
deriving DecidableEq, Repr

/-- A subgraph deployment is identified by its IPFS CID string. -/
abbrev SubgraphDeployment := String

/-- An indexing status record
(`IndexingStatus` of the indexer client; cf. `src/common/src/types.rs` plus
the `earliest_block_number` field the indexing loop relies on). -/
structure IndexingStatus where
  indexer : Indexer
  deployment : SubgraphDeployment
  network : String
  latest_block : BlockPointer
  earliest_block_number : Nat
deriving DecidableEq, Repr

/-- A proof of indexing record (`ProofOfIndexing` of `src/common/src/types.rs`). -/
structure ProofOfIndexing where
  indexer : Indexer
  deployment : SubgraphDeployment
  block : BlockPointer
  proof_of_indexing : List Nat
deriving DecidableEq, Repr

/-- A PoI request (`POIRequest` of `src/common/src/types.rs`). -/
structure PoiRequest where
  deployment : SubgraphDeployment
  block_number : Nat
deriving DecidableEq, Repr

/-! ## Indexer deduplication (`deduplicate_indexers`, `src/crates/graphix/src/main.rs`) -/

/-- The loop body of `deduplicate_indexers`: walk the list, keep an indexer iff
its `address()` value (an `Option`) has not been seen yet, then record it as
seen.  `seen` models the `HashSet<Option<Address>>` of the source. -/
def dedupGo (seen : List (Option (List Nat))) : List Indexer → List Indexer
  | [] => []
  | i :: rest =>
    if i.address ∈ seen then dedupGo seen rest
    else i :: dedupGo (i.address :: seen) rest

/-- `deduplicate_indexers` of `src/crates/graphix/src/main.rs`: deduplicate by
the `Option`-valued address, starting from an empty `seen` set. -/
def deduplicate_indexers (indexers : List Indexer) : List Indexer :=
  dedupGo [] indexers

/-! ## The single-PoI convenience method
(`proof_of_indexing`, `src/backend/crates/common/src/indexer/types.rs`) -/

/-- The default `proof_of_indexing` method: call `proofs_of_indexing` on the
one-element batch and `pop()` the result vector, i.e. take its last element;
error (`anyhow!("no proof of indexing returned")`) iff the vector is empty.
The remote client is modelled as a function from request batches to PoI lists. -/
def proof_of_indexing (client : List PoiRequest → List ProofOfIndexing)
    (request : PoiRequest) : Except String ProofOfIndexing :=
  match (client [request]).getLast? with
  | some poi => .ok poi
  | none => .error "no proof of indexing returned"

/-! ## The status collector
(`query_indexing_statuses`, `src/crates/graphix_lib/src/indexing_loop.rs`) -/

/-- One indexer's query outcome, as observed after the concurrent fan-out has
been collected: either the list of statuses it returned or an error message. -/
abbrev StatusQueryResult := Except String (List IndexingStatus)

/-- The accumulation loop of `query_indexing_statuses`
(`src/crates/graphix_lib/src/indexing_loop.rs`): walk the collected per-indexer
results; on `Ok(statuses)` bump the success counter and `extend` the flat
list, on `Err` bump the failure counter and log.  Returns
`(indexing_statuses, query_successes, query_failures)`. -/
def statusFoldStep (acc : List IndexingStatus × Nat × Nat)
    (r : Indexer × StatusQueryResult) : List IndexingStatus × Nat × Nat :=
  match r.2 with
  | .ok statuses => (acc.1 ++ statuses, acc.2.1 + 1, acc.2.2)
  | .error _ => (acc.1, acc.2.1, acc.2.2 + 1)

/-- `query_indexing_statuses`: fold the per-indexer results. -/
def query_indexing_statuses (results : List (Indexer × StatusQueryResult)) :
    List IndexingStatus × Nat × Nat :=
  results.foldl statusFoldStep ([], 0, 0)

/-! ## The PoI collector
(`query_proofs_of_indexing`, `src/crates/graphix_lib/src/indexing_loop.rs`) -/

/-- Rust's `Ord for Option<u64>` in the direction used by the source:
`some x >= b` where `None < Some y` for every `y`. -/
def optGeSome (x : Nat) : Option Nat → Bool
  | none => true
  | some y => y ≤ x

/-- `statuses_by_deployment` for one deployment: the statuses whose deployment
equals `d` (the `filter` in `query_proofs_of_indexing`). -/
def statusesOfDeployment (statuses : List IndexingStatus)
    (d : SubgraphDeployment) : List IndexingStatus :=
  statuses.filter (fun status => status.deployment == d)

/-- The deployment key set of `query_proofs_of_indexing` (a `HashSet` in the
source, modelled as the duplicate-free list of deployments in order of first
appearance). -/
def deploymentsOf (statuses : List IndexingStatus) : List SubgraphDeployment :=
  (statuses.map (fun status => status.deployment)).dedup

/-- `latest_blocks` for one deployment: apply the block-choice policy `choose`
to the statuses covering the deployment. -/
def latestBlocks (choose : List IndexingStatus → Option Nat)
    (statuses : List IndexingStatus) (d : SubgraphDeployment) : Option Nat :=
  choose (statusesOfDeployment statuses d)

/-- The `poi_requests` batch built for one `indexer` inside
`query_proofs_of_indexing`: keep the deployments for which this indexer has a
status with `Some(latest_block.number) >= block_number`, then keep those whose
chosen block is present, building `PoiRequest { deployment, block_number }`. -/
def poiRequestsFor (choose : List IndexingStatus → Option Nat)
    (statuses : List IndexingStatus) (indexer : Indexer) : List PoiRequest :=
  ((deploymentsOf statuses).filter (fun d =>
      (statusesOfDeployment statuses d).any (fun status =>
        indexerEq status.indexer indexer &&
          optGeSome status.latest_block.number (latestBlocks choose statuses d)))).filterMap
    (fun d =>
      (latestBlocks choose statuses d).map
        (fun block_number => { deployment := d, block_number := block_number }))

/-! ## Block choice policies (modelled from the spec) -/

/-- One step of the running maximum over statuses. -/
def maxStep (acc : Option Nat) (status : IndexingStatus) : Option Nat :=
  match acc with
  | none => some status.latest_block.number
  | some m => some (Nat.max m status.latest_block.number)

/-- Modelled from the spec: the `MaxBlock` block-choice policy
(`block_choice.rs` is not among the provided sources).  Returns the maximum
`latest_block.number` across the statuses, `none` on empty input.  It is a
pure function of the status list, hence deterministic. -/
def maxBlock (statuses : List IndexingStatus) : Option Nat :=
  statuses.foldl maxStep none

/-- The multiset of `latest_block.number` values of a status list. -/
def latestNumbers (statuses : List IndexingStatus) : List Nat :=
  statuses.map (fun status => status.latest_block.number)

/-- Whether candidate `n` beats the incumbent `m` for `MostSyncedBlocks`:
strictly more supporting statuses, or equally many and a lower block number. -/
def pluralityBeats (nums : List Nat) (n m : Nat) : Bool :=
  nums.count m < nums.count n || (nums.count n == nums.count m && n < m)

/-- One step of the plurality selection: replace the incumbent whenever the
candidate beats it. -/
def msbStep (nums : List Nat) (acc : Option Nat) (n : Nat) : Option Nat :=
  match acc with
  | none => some n
  | some m => if pluralityBeats nums n m then some n else some m

/-- Modelled from the spec: the `MostSyncedBlocks` block-choice policy
(`block_choice.rs` is not among the provided sources).  Returns the block
number held by the largest plurality of the statuses'
`latest_block.number`, tie-broken to the lowest number; `none` on empty
input.  It is a pure function of the status list, hence deterministic. -/
def mostSyncedBlocks (statuses : List IndexingStatus) : Option Nat :=
  (latestNumbers statuses).foldl (msbStep (latestNumbers statuses)) none

/-- The ordering `MostSyncedBlocks` optimises: `n` is at least as good a
choice as `m` when `n` is held by strictly more statuses, or by equally many
and `n` is not larger. -/
def pluralityGe (nums : List Nat) (n m : Nat) : Prop :=
  nums.count m < nums.count n ∨ (nums.count m = nums.count n ∧ n ≤ m)

/-! ## One main-loop iteration (`main`, `src/crates/graphix/src/main.rs`) -/

/-- The fallible effects one iteration of the main loop performs, in program
order.  Each field models the outcome the corresponding call would produce in
this iteration (`config_to_indexers`, `Store::write_indexers`,
`watch::Sender::send`, `Store::write_graph_node_versions`,
`Store::write_pois`); the infallible status and PoI queries need no field. -/
structure IterationEffects where
  build_indexers : Except String (List Indexer)
  write_indexers : List Indexer → Except String Unit
  send_indexers : List Indexer → Except String Unit
  write_graph_node_versions : Except String Unit
  write_pois : Except String Unit

/-- How one iteration of the `loop` in `main` ends. -/
inductive IterationOutcome where
  /-- Control reaches the `sleep` at the bottom of the loop body; the loop
  runs another iteration. -/
  | nextIteration : IterationOutcome
  /-- A `?` operator propagated the error out of `main`, terminating the
  process. -/
  | exitWithError (e : String) : IterationOutcome
deriving DecidableEq, Repr

/-- One iteration of the `loop` in `main` (`src/crates/graphix/src/main.rs`):
`config_to_indexers(..).await?`, deduplication, `write_indexers(..).await?`,
`tx_indexers.send(..)?` and `write_graph_node_versions(..).await?` all use
`?`, so their errors escape `main`; only a `write_pois` error is caught,
logged with `error!`, and execution falls through to the sleep. -/
def mainLoopIteration (fx : IterationEffects) : IterationOutcome :=
  match fx.build_indexers with
  | .error e => .exitWithError e
  | .ok built =>
    let indexers := deduplicate_indexers built
    match fx.write_indexers indexers with
    | .error e => .exitWithError e
    | .ok _ =>
      match fx.send_indexers indexers with
      | .error e => .exitWithError e
      | .ok _ =>
        match fx.write_graph_node_versions with
        | .error e => .exitWithError e
        | .ok _ =>
          match fx.write_pois with
          | .error _ => .nextIteration
          | .ok _ => .nextIteration

/-! ## Divergence bisection (modelled from the spec) -/

/-- A divergence investigation report: the first block at which the pair's
PoIs differ and, when available, the last block at which they agreed. -/
structure DivergenceReport where
  first_divergent_block : Nat
  last_common_block : Option Nat
deriving DecidableEq, Repr

/-- Modelled from the spec: one step structure of the §4.H bisection loop (the
`DivergenceInvestigator` implementation is not among the provided sources).
`poiA`/`poiB` model the two indexers' PoI fetches (`none` is a failed fetch).
The `fuel` argument bounds the number of loop iterations; the caller passes
`high - low`, which the spec's loop strictly decreases, so fuel never runs
out on a real call.  Both a failed fetch (the spec's `PartialFailure` abort)
and fuel exhaustion yield `none`: no report is emitted. -/
def bisectGo (poiA poiB : Nat → Option (List Nat)) :
    Nat → Nat → Nat → Option DivergenceReport
  | 0, low, high =>
    if high - low > 1 then none
    else some { first_divergent_block := high
                last_common_block := if low < high then some low else none }
  | fuel + 1, low, high =>
    if high - low > 1 then
      match poiA (low + (high - low) / 2), poiB (low + (high - low) / 2) with
      | some a, some b =>
        if a = b then bisectGo poiA poiB fuel (low + (high - low) / 2) high
        else bisectGo poiA poiB fuel low (low + (high - low) / 2)
      | _, _ => none
    else some { first_divergent_block := high
                last_common_block := if low < high then some low else none }

/-- Modelled from the spec: the §4.H bisection over `[low, high]`, emitting
`Report(first_divergent_block = high, last_common_block = (low if low < high
else none))` when the loop exits. -/
def bisect (poiA poiB : Nat → Option (List Nat)) (low high : Nat) :
    Option DivergenceReport :=
  bisectGo poiA poiB (high - low) low high

/-! ## `Bytes32` hex encoding and decoding (`src/common/src/types.rs`) -/

/-- The sixteen hexadecimal output digits, in value order (the `hex` crate
encodes with lowercase digits): `0`-`9` then `a`-`f`. -/
def hexChars : List Char :=
  (List.range 16).map
    (fun n => if n < 10 then Char.ofNat ('0'.toNat + n) else Char.ofNat ('a'.toNat + n - 10))

/-- The value of one hex digit as `hex::decode` accepts it: `0-9`, `a-f` or
`A-F`; `none` on any other character. -/
def hexDigitVal? (c : Char) : Option Nat :=
  if '0' ≤ c ∧ c ≤ '9' then some (c.toNat - '0'.toNat)
  else if 'a' ≤ c ∧ c ≤ 'f' then some (c.toNat - 'a'.toNat + 10)
  else if 'A' ≤ c ∧ c ≤ 'F' then some (c.toNat - 'A'.toNat + 10)
  else none

/-- The lowercase hex digit of a value below 16 (as `hex::encode` emits it). -/
def hexDigitChar (n : Nat) : Char :=
  hexChars.getD n '0'

/-- `hex::decode`: consume the characters two at a time; fail on an odd-length
input or a non-hex character. -/
def hexDecode : List Char → Option (List Nat)
  | [] => some []
  | [_] => none
  | c1 :: c2 :: rest =>
    match hexDigitVal? c1, hexDigitVal? c2, hexDecode rest with
    | some hi, some lo, some bytes => some ((hi * 16 + lo) :: bytes)
    | _, _, _ => none

/-- `hex::encode`: two lowercase digits per byte, high nibble first. -/
def hexEncode : List Nat → List Char
  | [] => []
  | b :: bytes => hexDigitChar (b / 16) :: hexDigitChar (b % 16) :: hexEncode bytes

/-- Rust's `str::trim_start_matches("0x")`: repeatedly strip a leading `"0x"`
(all leading occurrences are removed, not just one). -/
def trimStartMatches0x : List Char → List Char
  | c1 :: c2 :: rest =>
    if c1 = '0' ∧ c2 = 'x' then trimStartMatches0x rest
    else c1 :: c2 :: rest
  | s => s

/-- `TryFrom<&str> for Bytes32` (`src/common/src/types.rs`):
`hex::decode(s.trim_start_matches("0x"))`.  Note the source performs no
length check on the decoded bytes. -/
def bytes32TryFrom (s : List Char) : Option (List Nat) :=
  hexDecode (trimStartMatches0x s)

/-- `Display for Bytes32` (`src/common/src/types.rs`): `hex::encode(&self.0)`,
with no `0x` prefix. -/
def bytes32Display (bytes : List Nat) : List Char :=
  hexEncode bytes

/-- Whether a character is one of the sixteen digits `hex::encode` can emit
(decimal digits and lowercase `a`-`f`). -/
def isLowerHexDigit (c : Char) : Bool :=
  hexChars.contains c

/-! ## Theorems -/

/-- Claim C10: the default single-PoI convenience method `proof_of_indexing`
returns an error if and only if the batched `proofs_of_indexing` call on the
one-element batch returns an empty vector; otherwise it returns `Ok` of the
last element of the returned vector (`Vec::pop`), without checking that this
element matches the requested deployment and block — the second conjunct holds
for an arbitrary returned element `poi`, related or not to `request`. -/
theorem proof_of_indexing_pops_last
    (client : List PoiRequest → List ProofOfIndexing) (request : PoiRequest) :
    (proof_of_indexing client request = .error "no proof of indexing returned" ↔
      client [request] = []) ∧
    (∀ front poi, client [request] = front ++ [poi] →
      proof_of_indexing client request = .ok poi) := by
  constructor
  · unfold proof_of_indexing
    rcases h : (client [request]).getLast? with _ | poi
    · exact iff_of_true rfl (List.getLast?_eq_none_iff.mp h)
    · refine iff_of_false (by simp) ?_
      intro hempty
      rw [hempty] at h
      exact absurd h (by simp)
  · intro front poi hcl
    unfold proof_of_indexing
    rw [hcl, List.getLast?_concat]

/-- Witness for C10: a client that answers the one-element batch with a single
PoI for an unrelated deployment; the method still returns `Ok` of that PoI. -/
theorem proof_of_indexing_pops_last_witness :
    (fun _ : List PoiRequest =>
        [{ indexer := { id := "i1", address := none }, deployment := "QmB",
           block := { number := 3, hash := none },
           proof_of_indexing := [7] : ProofOfIndexing }]) [{ deployment := "QmA", block_number := 100 }] =
      [] ++ [{ indexer := { id := "i1", address := none }, deployment := "QmB",
               block := { number := 3, hash := none }, proof_of_indexing := [7] }] ∧
    proof_of_indexing
      (fun _ =>
        [{ indexer := { id := "i1", address := none }, deployment := "QmB",
           block := { number := 3, hash := none }, proof_of_indexing := [7] }])
      { deployment := "QmA", block_number := 100 } =
      .ok { indexer := { id := "i1", address := none }, deployment := "QmB",
            block := { number := 3, hash := none }, proof_of_indexing := [7] } :=
  ⟨rfl,
    (proof_of_indexing_pops_last
      (fun _ =>
        [{ indexer := { id := "i1", address := none }, deployment := "QmB",
           block := { number := 3, hash := none }, proof_of_indexing := [7] }])
      { deployment := "QmA", block_number := 100 }).2 [] _ rfl⟩

/-- Counterexample to claim C2: an iteration whose `config_to_indexers` call
fails does not proceed to the next iteration — the `?` operator propagates the
error out of `main` and the process terminates. -/
theorem main_loop_exits_on_build_indexers_error :
    mainLoopIteration
        { build_indexers := .error "boom"
          write_indexers := fun _ => .ok ()
          send_indexers := fun _ => .ok ()
          write_graph_node_versions := .ok ()
          write_pois := .ok () } =
      .exitWithError "boom" ∧
    mainLoopIteration
        { build_indexers := .error "boom"
          write_indexers := fun _ => .ok ()
          send_indexers := fun _ => .ok ()
          write_graph_node_versions := .ok ()
          write_pois := .ok () } ≠
      .nextIteration := by
  constructor
  · rfl
  · intro h
    exact absurd h (by decide)

/-- Claim C2 as amended: the iteration reaches the sleep (and hence the next
iteration) exactly when building the indexer list, `write_indexers`, the
watch-channel send and `write_graph_node_versions` all succeed; a `write_pois`
failure alone is logged and the loop still continues (the iff holds whatever
`write_pois` returns), while an error in any of the four earlier steps
propagates out of `main` and terminates the process. -/
theorem main_loop_continues_iff_upstream_effects_ok (fx : IterationEffects) :
    mainLoopIteration fx = .nextIteration ↔
      ∃ built, fx.build_indexers = .ok built ∧
        fx.write_indexers (deduplicate_indexers built) = .ok () ∧
        fx.send_indexers (deduplicate_indexers built) = .ok () ∧
        fx.write_graph_node_versions = .ok () := by
  unfold mainLoopIteration
  rcases hb : fx.build_indexers with e | built
  · simp [hb]
  · rcases hw : fx.write_indexers (deduplicate_indexers built) with e | u
    · simp [hb, hw]
    · rcases hs : fx.send_indexers (deduplicate_indexers built) with e | u2
      · simp [hb, hw, hs]
      · rcases hv : fx.write_graph_node_versions with e | u3
        · simp [hb, hw, hs, hv]
        · rcases hp : fx.write_pois with e | u4 <;> simp [hb, hw, hs, hv, hp]

/-- Witness for C2's amended theorem: with all four upstream effects
succeeding and `write_pois` failing, the loop still proceeds to the next
iteration. -/
theorem main_loop_continues_iff_upstream_effects_ok_witness :
    mainLoopIteration
        { build_indexers := .ok [{ id := "a", address := none }]
          write_indexers := fun _ => .ok ()
          send_indexers := fun _ => .ok ()
          write_graph_node_versions := .ok ()
          write_pois := .error "db down" } =
      .nextIteration :=
  (main_loop_continues_iff_upstream_effects_ok
      { build_indexers := .ok [{ id := "a", address := none }]
        write_indexers := fun _ => .ok ()
        send_indexers := fun _ => .ok ()
        write_graph_node_versions := .ok ()
        write_pois := .error "db down" }).mpr
    ⟨[{ id := "a", address := none }], rfl, rfl, rfl, rfl⟩

/-- Counterexample to claim C5: two indexers that share the address `[1]` but
have different ids compare unequal under the `PartialEq for dyn Indexer` impl,
although the spec's address-first equality deems them equal — the code
compares ids only. -/
theorem indexer_eq_is_by_id_not_address :
    indexerEq { id := "a", address := some [1] } { id := "b", address := some [1] } = false ∧
    specIndexerEq { id := "a", address := some [1] } { id := "b", address := some [1] } = true := by
  decide

/-- Claim C5 as amended: two indexers compare equal under the `Eq`/`Hash`
used to identify and group them if and only if their `id` strings are equal,
regardless of their addresses; the hash is consistent with this equality, and
the relation is reflexive and symmetric. -/
theorem indexer_eq_iff_id_eq (a b : Indexer) (h : String → Nat) :
    (indexerEq a b = true ↔ a.id = b.id) ∧
    (indexerEq a b = true → indexerHash h a = indexerHash h b) ∧
    indexerEq a a = true ∧
    indexerEq a b = indexerEq b a := by
  refine ⟨?_, ?_, ?_, ?_⟩
  · simp [indexerEq]
  · intro he
    simp only [indexerEq, beq_iff_eq] at he
    simp [indexerHash, he]
  · simp [indexerEq]
  · simp only [indexerEq]
    rcases eq_or_ne a.id b.id with he | he
    · simp [he]
    · simp [he, Ne.symm he]

/-- Witness for C5's amended theorem at two concrete indexers sharing an
address but not an id. -/
theorem indexer_eq_iff_id_eq_witness :
    indexerEq { id := "a", address := some [1] } { id := "b", address := some [1] } ≠ true :=
  fun habs =>
    absurd
      ((indexer_eq_iff_id_eq { id := "a", address := some [1] }
          { id := "b", address := some [1] } String.length).1.mp habs)
      (by decide)

/-- Every indexer kept by `dedupGo` is kept as part of a sublist of the
input. -/
theorem dedupGo_sublist (l : List Indexer) :
    ∀ seen, (dedupGo seen l).Sublist l := by
  induction l with
  | nil => intro seen; exact List.Sublist.refl []
  | cons i rest ih =>
    intro seen
    by_cases h : i.address ∈ seen
    · simp only [dedupGo, if_pos h]
      exact (ih seen).cons i
    · simp only [dedupGo, if_neg h]
      exact (ih (i.address :: seen)).cons₂ i

/-- Every indexer kept by `dedupGo` has an address that was not yet seen. -/
theorem dedupGo_address_not_seen (l : List Indexer) :
    ∀ seen, ∀ i ∈ dedupGo seen l, i.address ∉ seen := by
  induction l with
  | nil => intro seen i hi; cases hi
  | cons j rest ih =>
    intro seen i hi
    by_cases h : j.address ∈ seen
    · rw [dedupGo, if_pos h] at hi
      exact ih seen i hi
    · rw [dedupGo, if_neg h] at hi
      rcases List.mem_cons.mp hi with rfl | hi2
      · exact h
      · intro habs
        exact ih (j.address :: seen) i hi2 (List.mem_cons_of_mem _ habs)

/-- The addresses of the indexers kept by `dedupGo` are pairwise distinct. -/
theorem dedupGo_address_nodup (l : List Indexer) :
    ∀ seen, ((dedupGo seen l).map (fun i => i.address)).Nodup := by
  induction l with
  | nil => intro seen; simp [dedupGo]
  | cons j rest ih =>
    intro seen
    by_cases h : j.address ∈ seen
    · rw [dedupGo, if_pos h]
      exact ih seen
    · rw [dedupGo, if_neg h]
      refine List.nodup_cons.mpr ⟨?_, ih (j.address :: seen)⟩
      intro habs
      rcases List.mem_map.mp habs with ⟨i, hi, haddr⟩
      exact dedupGo_address_not_seen rest (j.address :: seen) i hi
        (haddr ▸ List.mem_cons_self _ _)

/-- Every address of the input whose address is not yet seen is represented in
the output of `dedupGo`. -/
theorem dedupGo_address_covered (l : List Indexer) :
    ∀ seen, ∀ i ∈ l, i.address ∉ seen →
      ∃ j ∈ dedupGo seen l, j.address = i.address := by
  induction l with
  | nil => intro seen i hi; cases hi
  | cons j rest ih =>
    intro seen i hi hfresh
    rcases List.mem_cons.mp hi with rfl | hi2
    · rw [dedupGo, if_neg hfresh]
      exact ⟨i, List.mem_cons_self _ _, rfl⟩
    · by_cases h : j.address ∈ seen
      · rw [dedupGo, if_pos h]
        exact ih seen i hi2 hfresh
      · rw [dedupGo, if_neg h]
        by_cases heq : i.address = j.address
        · exact ⟨j, List.mem_cons_self _ _, heq.symm⟩
        · have hfresh2 : i.address ∉ j.address :: seen := by
            intro habs
            rcases List.mem_cons.mp habs with habs1 | habs2
            · exact heq habs1
            · exact hfresh habs2
          rcases ih (j.address :: seen) i hi2 hfresh2 with ⟨k, hk, hkaddr⟩
          exact ⟨k, List.mem_cons_of_mem _ hk, hkaddr⟩

/-- Every indexer kept by `dedupGo` occurs in the input, and every element
before its (kept) occurrence either has an already-seen address or a different
address. -/
theorem dedupGo_first_occurrence (l : List Indexer) :
    ∀ seen, ∀ i ∈ dedupGo seen l,
      ∃ pre post, l = pre ++ i :: post ∧
        ∀ j ∈ pre, j.address ∈ seen ∨ j.address ≠ i.address := by
  induction l with
  | nil => intro seen i hi; cases hi
  | cons j rest ih =>
    intro seen i hi
    by_cases h : j.address ∈ seen
    · rw [dedupGo, if_pos h] at hi
      rcases ih seen i hi with ⟨pre, post, hsplit, hpre⟩
      refine ⟨j :: pre, post, by rw [hsplit]; rfl, ?_⟩
      intro k hk
      rcases List.mem_cons.mp hk with rfl | hk2
      · exact Or.inl h
      · exact hpre k hk2
    · rw [dedupGo, if_neg h] at hi
      rcases List.mem_cons.mp hi with rfl | hi2
      · exact ⟨[], rest, rfl, by intro k hk; cases hk⟩
      · rcases ih (j.address :: seen) i hi2 with ⟨pre, post, hsplit, hpre⟩
        have hifresh : i.address ∉ j.address :: seen :=
          dedupGo_address_not_seen rest (j.address :: seen) i hi2
        refine ⟨j :: pre, post, by rw [hsplit]; rfl, ?_⟩
        intro k hk
        rcases List.mem_cons.mp hk with rfl | hk2
        · refine Or.inr ?_
          intro habs
          exact hifresh (habs ▸ List.mem_cons_self _ _)
        · rcases hpre k hk2 with hk3 | hk3
          · rcases List.mem_cons.mp hk3 with hk4 | hk5
            · refine Or.inr ?_
              intro habs
              exact hifresh ((hk4 ▸ habs) ▸ List.mem_cons_self _ _)
            · exact Or.inl hk5
          · exact Or.inr hk3

/-- Counterexample to claim C4: two indexers that both lack an address but
have distinct ids are NOT both retained — the dedup key is the address
`Option` value, so the second address-less indexer is dropped. -/
theorem dedup_drops_second_addressless_indexer :
    deduplicate_indexers [{ id := "a", address := none }, { id := "b", address := none }] =
      [{ id := "a", address := none }] ∧
    deduplicate_indexers [{ id := "a", address := none }, { id := "b", address := none }] ≠
      [{ id := "a", address := none }, { id := "b", address := none }] := by
  decide

/-- Claim C4 as amended: deduplication retains exactly the first occurrence of
each distinct address value — where a missing address is itself one key, so
all address-less indexers collapse onto the first of them — and drops later
duplicates: the output is a sublist of the input, no two retained indexers
share an address value (present or absent), every input address value is
represented, and each retained indexer is the first element of the input
carrying its address value. -/
theorem dedup_first_occurrence_by_address (l : List Indexer) :
    (deduplicate_indexers l).Sublist l ∧
    ((deduplicate_indexers l).map (fun i => i.address)).Nodup ∧
    (∀ i ∈ l, ∃ j ∈ deduplicate_indexers l, j.address = i.address) ∧
    (∀ i ∈ deduplicate_indexers l,
      ∃ pre post, l = pre ++ i :: post ∧ ∀ j ∈ pre, j.address ≠ i.address) := by
  refine ⟨dedupGo_sublist l [], dedupGo_address_nodup l [], ?_, ?_⟩
  · intro i hi
    exact dedupGo_address_covered l [] i hi (by intro habs; cases habs)
  · intro i hi
    rcases dedupGo_first_occurrence l [] i hi with ⟨pre, post, hsplit, hpre⟩
    refine ⟨pre, post, hsplit, ?_⟩
    intro j hj
    rcases hpre j hj with hj2 | hj2
    · cases hj2
    · exact hj2

/-- Witness for C4's amended theorem on the spec's S5 scenario
`[A(addr=0x01), B(addr=0x02), A'(addr=0x01)]`: the first occurrence of address
`0x01` is retained. -/
theorem dedup_first_occurrence_by_address_witness :
    ∃ j ∈ deduplicate_indexers
        [{ id := "A", address := some [1] }, { id := "B", address := some [2] },
         { id := "A2", address := some [1] }],
      j.address = ({ id := "A2", address := some [1] } : Indexer).address :=
  (dedup_first_occurrence_by_address
      [{ id := "A", address := some [1] }, { id := "B", address := some [2] },
       { id := "A2", address := some [1] }]).2.2.1
    { id := "A2", address := some [1] } (by decide)

/-- Any report produced by the bounded bisection loop has adjacent blocks:
either no last common block, or the first divergent block is its successor. -/
theorem bisectGo_report_adjacent (poiA poiB : Nat → Option (List Nat)) :
    ∀ fuel low high r, bisectGo poiA poiB fuel low high = some r →
      r.last_common_block = none ∨
        ∃ n, r.last_common_block = some n ∧ r.first_divergent_block = n + 1 := by
  intro fuel
  induction fuel with
  | zero =>
    intro low high r hr
    rw [bisectGo] at hr
    by_cases h : high - low > 1
    · rw [if_pos h] at hr
      cases hr
    · rw [if_neg h] at hr
      rcases Option.some.injEq .. ▸ hr with rfl
      by_cases hlt : low < high
      · refine Or.inr ⟨low, ?_, ?_⟩
        · simp [hlt]
        · simp only
          omega
      · refine Or.inl ?_
        simp [hlt]
  | succ fuel ih =>
    intro low high r hr
    rw [bisectGo] at hr
    by_cases h : high - low > 1
    · rw [if_pos h] at hr
      split at hr
      · split at hr
        · exact ih _ _ r hr
        · exact ih _ _ r hr
      · cases hr
    · rw [if_neg h] at hr
      rcases Option.some.injEq .. ▸ hr with rfl
      by_cases hlt : low < high
      · refine Or.inr ⟨low, ?_, ?_⟩
        · simp [hlt]
        · simp only
          omega
      · refine Or.inl ?_
        simp [hlt]

/-- Claim C3: every divergence investigation report emitted by the bisection
algorithm satisfies: either `first_divergent_block.number` equals
`last_common_block.number + 1`, or `last_common_block` is absent. -/
theorem bisect_report_block_adjacency (poiA poiB : Nat → Option (List Nat))
    (low high : Nat) (r : DivergenceReport)
    (hr : bisect poiA poiB low high = some r) :
    r.last_common_block = none ∨
      ∃ n, r.last_common_block = some n ∧ r.first_divergent_block = n + 1 :=
  bisectGo_report_adjacent poiA poiB (high - low) low high r hr

/-- Witness for C3: bisecting two indexers that disagree at every block of
`[0, 100]` terminates with the report `(first_divergent_block = 1,
last_common_block = 0)`, which satisfies the adjacency invariant. -/
theorem bisect_report_block_adjacency_witness :
    bisect (fun _ => some [0]) (fun _ => some [1]) 0 100 =
      some { first_divergent_block := 1, last_common_block := some 0 } ∧
    ((({ first_divergent_block := 1, last_common_block := some 0 } :
          DivergenceReport)).last_common_block = none ∨
      ∃ n, ({ first_divergent_block := 1, last_common_block := some 0 } :
          DivergenceReport).last_common_block = some n ∧
        ({ first_divergent_block := 1, last_common_block := some 0 } :
          DivergenceReport).first_divergent_block = n + 1) :=
  ⟨by decide,
    bisect_report_block_adjacency (fun _ => some [0]) (fun _ => some [1]) 0 100
      { first_divergent_block := 1, last_common_block := some 0 } (by decide)⟩

/-- Membership characterisation of the PoI request batch built for one
indexer: a request is issued exactly when the chosen block of its deployment
is that block number and this indexer has a status for the deployment whose
latest block has reached it. -/
theorem mem_poiRequestsFor (choose : List IndexingStatus → Option Nat)
    (statuses : List IndexingStatus) (indexer : Indexer) (r : PoiRequest) :
    r ∈ poiRequestsFor choose statuses indexer ↔
      latestBlocks choose statuses r.deployment = some r.block_number ∧
      ∃ s ∈ statuses, s.deployment = r.deployment ∧
        indexerEq s.indexer indexer = true ∧
        r.block_number ≤ s.latest_block.number := by
  unfold poiRequestsFor
  rw [List.mem_filterMap]
  constructor
  · rintro ⟨d, hd, hmap⟩
    rcases Option.map_eq_some'.mp hmap with ⟨n, hn, hfn⟩
    cases hfn
    rw [List.mem_filter] at hd
    rcases hd with ⟨_, hany⟩
    rw [List.any_eq_true] at hany
    rcases hany with ⟨s, hs, hcond⟩
    rw [statusesOfDeployment, List.mem_filter] at hs
    rcases hs with ⟨hs1, hs2⟩
    rw [Bool.and_eq_true] at hcond
    rcases hcond with ⟨hidx, hge⟩
    rw [hn] at hge
    refine ⟨hn, s, hs1, beq_iff_eq.mp hs2, hidx, ?_⟩
    simpa [optGeSome] using hge
  · rintro ⟨hlb, s, hs, hdep, hidx, hle⟩
    refine ⟨r.deployment, ?_, ?_⟩
    · rw [List.mem_filter]
      constructor
      · rw [deploymentsOf, List.mem_dedup, List.mem_map]
        exact ⟨s, hs, hdep⟩
      · rw [List.any_eq_true]
        refine ⟨s, ?_, ?_⟩
        · rw [statusesOfDeployment, List.mem_filter]
          exact ⟨hs, beq_iff_eq.mpr hdep⟩
        · rw [Bool.and_eq_true, hlb]
          exact ⟨hidx, by simpa [optGeSome] using hle⟩
    · rw [hlb]
      rfl

/-- Claim C1: every PoI request issued by the PoI collector for an indexer is
for a deployment such that some `IndexingStatus` of that round has that
indexer (under the program's indexer equality) and deployment, with
`latest_block.number` at least the requested target block number. -/
theorem poi_requests_backed_by_status (choose : List IndexingStatus → Option Nat)
    (statuses : List IndexingStatus) (indexer : Indexer) (r : PoiRequest)
    (hr : r ∈ poiRequestsFor choose statuses indexer) :
    ∃ s ∈ statuses, indexerEq s.indexer indexer = true ∧
      s.deployment = r.deployment ∧ r.block_number ≤ s.latest_block.number := by
  rcases (mem_poiRequestsFor choose statuses indexer r).mp hr with
    ⟨_, s, hs, hdep, hidx, hle⟩
  exact ⟨s, hs, hidx, hdep, hle⟩

/-- A one-status round used by several witnesses below. -/
def sampleStatus : IndexingStatus :=
  { indexer := { id := "i1", address := none }
    deployment := "QmA"
    network := "mainnet"
    latest_block := { number := 100, hash := none }
    earliest_block_number := 0 }

/-- Witness for C1: in a round with one status at block 100, the request for
block 100 is issued and is indeed backed by that status. -/
theorem poi_requests_backed_by_status_witness :
    ({ deployment := "QmA", block_number := 100 } : PoiRequest) ∈
      poiRequestsFor maxBlock [sampleStatus] { id := "i1", address := none } ∧
    ∃ s ∈ [sampleStatus],
      indexerEq s.indexer { id := "i1", address := none } = true ∧
        s.deployment = "QmA" ∧ 100 ≤ s.latest_block.number :=
  ⟨by decide,
    poi_requests_backed_by_status maxBlock [sampleStatus]
      { id := "i1", address := none } { deployment := "QmA", block_number := 100 }
      (by decide)⟩

/-- `maxStep` is right-commutative, so the running maximum is insensitive to
the order statuses are folded in. -/
theorem maxStep_comm (acc : Option Nat) (x y : IndexingStatus) :
    maxStep (maxStep acc x) y = maxStep (maxStep acc y) x := by
  rcases acc with _ | m
  · simp [maxStep, Nat.max_comm]
  · simp only [maxStep]
    exact congrArg some (Nat.max_right_comm m x.latest_block.number y.latest_block.number)

/-- The `MaxBlock` policy is invariant under permutation of its input. -/
theorem maxBlock_perm {l1 l2 : List IndexingStatus} (h : List.Perm l1 l2) :
    maxBlock l1 = maxBlock l2 := by
  have hgen : ∀ acc : Option Nat, l1.foldl maxStep acc = l2.foldl maxStep acc := by
    induction h with
    | nil => intro acc; rfl
    | cons x _ ih =>
      intro acc
      simp only [List.foldl_cons]
      exact ih _
    | swap x y l =>
      intro acc
      simp only [List.foldl_cons]
      rw [maxStep_comm]
    | trans _ _ ih1 ih2 =>
      intro acc
      rw [ih1, ih2]
  exact hgen none

/-- Claim C8: for a block-choice policy that is itself insensitive to the
order of its input (both recognised policies are), the set of PoI requests
the collector issues per indexer is invariant under re-ordering of the input
status list. -/
theorem poi_requests_perm_invariant (choose : List IndexingStatus → Option Nat)
    (hchoose : ∀ l1 l2 : List IndexingStatus, List.Perm l1 l2 → choose l1 = choose l2)
    (s1 s2 : List IndexingStatus) (hperm : List.Perm s1 s2)
    (indexer : Indexer) (r : PoiRequest) :
    r ∈ poiRequestsFor choose s1 indexer ↔ r ∈ poiRequestsFor choose s2 indexer := by
  rw [mem_poiRequestsFor, mem_poiRequestsFor]
  have hlb : latestBlocks choose s1 r.deployment = latestBlocks choose s2 r.deployment :=
    hchoose _ _ (hperm.filter _)
  rw [hlb]
  simp only [hperm.mem_iff]

/-- A second status, behind the first, for the same deployment. -/
def sampleStatusBehind : IndexingStatus :=
  { indexer := { id := "i2", address := none }
    deployment := "QmA"
    network := "mainnet"
    latest_block := { number := 50, hash := none }
    earliest_block_number := 0 }

/-- Witness for C8: swapping the two statuses of a round leaves membership of
the request for block 100 unchanged, and the request is issued in both
orders. -/
theorem poi_requests_perm_invariant_witness :
    (({ deployment := "QmA", block_number := 100 } : PoiRequest) ∈
        poiRequestsFor maxBlock [sampleStatus, sampleStatusBehind]
          { id := "i1", address := none } ↔
      ({ deployment := "QmA", block_number := 100 } : PoiRequest) ∈
        poiRequestsFor maxBlock [sampleStatusBehind, sampleStatus]
          { id := "i1", address := none }) ∧
    ({ deployment := "QmA", block_number := 100 } : PoiRequest) ∈
      poiRequestsFor maxBlock [sampleStatus, sampleStatusBehind]
        { id := "i1", address := none } :=
  ⟨poi_requests_perm_invariant maxBlock (fun _ _ h => maxBlock_perm h)
      [sampleStatus, sampleStatusBehind] [sampleStatusBehind, sampleStatus]
      (List.Perm.swap sampleStatusBehind sampleStatus [])
      { id := "i1", address := none } { deployment := "QmA", block_number := 100 },
    by decide⟩

/-- Folding the running maximum from an already-set accumulator always yields
a value: one of the inputs or the accumulator, bounding all of them. -/
theorem foldl_maxStep_some (statuses : List IndexingStatus) :
    ∀ m : Nat, ∃ k, statuses.foldl maxStep (some m) = some k ∧
      (k = m ∨ k ∈ latestNumbers statuses) ∧ m ≤ k ∧
      ∀ s ∈ statuses, s.latest_block.number ≤ k := by
  induction statuses with
  | nil =>
    intro m
    exact ⟨m, rfl, Or.inl rfl, Nat.le_refl m, by intro s hs; cases hs⟩
  | cons s rest ih =>
    intro m
    rcases ih (Nat.max m s.latest_block.number) with ⟨k, hfold, hmem, hle, hall⟩
    refine ⟨k, ?_, ?_, ?_, ?_⟩
    · simpa [maxStep] using hfold
    · rcases hmem with rfl | hk
      · rcases Nat.le_total m s.latest_block.number with h | h
        · refine Or.inr ?_
          simp [latestNumbers, Nat.max_eq_right h]
        · exact Or.inl (Nat.max_eq_left h)
      · refine Or.inr ?_
        simp only [latestNumbers, List.map_cons, List.mem_cons]
        exact Or.inr hk
    · exact Nat.le_trans (Nat.le_max_left _ _) hle
    · intro t ht
      rcases List.mem_cons.mp ht with rfl | ht2
      · exact Nat.le_trans (Nat.le_max_right _ _) hle
      · exact hall t ht2

/-- `pluralityGe` is transitive (it is the lexicographic order on
(count descending, block number ascending)). -/
theorem pluralityGe_trans {nums : List Nat} {a b c : Nat}
    (h1 : pluralityGe nums a b) (h2 : pluralityGe nums b c) :
    pluralityGe nums a c := by
  unfold pluralityGe at h1 h2 ⊢
  omega

/-- A winning `pluralityBeats` outcome means the candidate is at least as
good. -/
theorem pluralityBeats_true_ge {nums : List Nat} {n m : Nat}
    (h : pluralityBeats nums n m = true) : pluralityGe nums n m := by
  unfold pluralityBeats at h
  unfold pluralityGe
  simp only [Bool.or_eq_true, Bool.and_eq_true, decide_eq_true_eq, beq_iff_eq] at h
  omega

/-- A losing `pluralityBeats` outcome means the incumbent is at least as
good. -/
theorem pluralityBeats_false_ge {nums : List Nat} {n m : Nat}
    (h : pluralityBeats nums n m = false) : pluralityGe nums m n := by
  unfold pluralityBeats at h
  unfold pluralityGe
  rw [Bool.or_eq_false_iff, Bool.and_eq_false_iff] at h
  rcases h with ⟨hlt, hrest⟩
  rw [decide_eq_false_iff_not] at hlt
  rcases hrest with hcnt | hn
  · rw [beq_eq_false_iff_ne] at hcnt
    omega
  · rw [decide_eq_false_iff_not] at hn
    omega

/-- Folding the plurality selection from an already-set incumbent always
yields a value: the incumbent or one of the inputs, at least as good as the
incumbent and as every input. -/
theorem foldl_msbStep_some (nums : List Nat) (rest : List Nat) :
    ∀ m : Nat, ∃ k, rest.foldl (msbStep nums) (some m) = some k ∧
      (k = m ∨ k ∈ rest) ∧ pluralityGe nums k m ∧
      ∀ x ∈ rest, pluralityGe nums k x := by
  induction rest with
  | nil =>
    intro m
    refine ⟨m, rfl, Or.inl rfl, Or.inr ⟨rfl, Nat.le_refl m⟩, ?_⟩
    intro x hx
    cases hx
  | cons n rest ih =>
    intro m
    rcases hb : pluralityBeats nums n m with _ | _
    · rcases ih m with ⟨k, hfold, hmem, hge, hall⟩
      refine ⟨k, ?_, ?_, hge, ?_⟩
      · simpa [msbStep, hb] using hfold
      · rcases hmem with rfl | hk
        · exact Or.inl rfl
        · exact Or.inr (List.mem_cons_of_mem _ hk)
      · intro x hx
        rcases List.mem_cons.mp hx with rfl | hx2
        · exact pluralityGe_trans hge (pluralityBeats_false_ge hb)
        · exact hall x hx2
    · rcases ih n with ⟨k, hfold, hmem, hge, hall⟩
      refine ⟨k, ?_, ?_, ?_, ?_⟩
      · simpa [msbStep, hb] using hfold
      · rcases hmem with rfl | hk
        · exact Or.inr (List.mem_cons_self _ _)
        · exact Or.inr (List.mem_cons_of_mem _ hk)
      · exact pluralityGe_trans hge (pluralityBeats_true_ge hb)
      · intro x hx
        rcases List.mem_cons.mp hx with rfl | hx2
        · exact hge
        · exact hall x hx2

/-- Claim C6: both block-choice policies are pure functions of the status
list (hence deterministic) and return `none` iff the input is empty; on
non-empty input `MaxBlock` returns the maximum `latest_block.number` present
and `MostSyncedBlocks` returns a `latest_block.number` present in the input
that is held by the largest plurality of statuses, tie-broken to the lowest
such number (`pluralityGe` against every input value). -/
theorem block_choice_policies_contract (statuses : List IndexingStatus) :
    (maxBlock statuses = none ↔ statuses = []) ∧
    (mostSyncedBlocks statuses = none ↔ statuses = []) ∧
    (∀ n, maxBlock statuses = some n →
      n ∈ latestNumbers statuses ∧ ∀ s ∈ statuses, s.latest_block.number ≤ n) ∧
    (∀ n, mostSyncedBlocks statuses = some n →
      n ∈ latestNumbers statuses ∧
        ∀ x ∈ latestNumbers statuses, pluralityGe (latestNumbers statuses) n x) := by
  rcases statuses with _ | ⟨s, rest⟩
  · refine ⟨Iff.intro (fun _ => rfl) (fun _ => rfl),
      Iff.intro (fun _ => rfl) (fun _ => rfl), ?_, ?_⟩
    · intro n hn
      cases hn
    · intro n hn
      cases hn
  · rcases foldl_maxStep_some rest s.latest_block.number with ⟨k, hfold, hmem, hle, hall⟩
    have hmax : maxBlock (s :: rest) = some k := by
      simpa [maxBlock, maxStep] using hfold
    rcases foldl_msbStep_some (latestNumbers (s :: rest)) (latestNumbers rest)
        s.latest_block.number with ⟨k2, hfold2, hmem2, hge2, hall2⟩
    have hmsb : mostSyncedBlocks (s :: rest) = some k2 := by
      simpa [mostSyncedBlocks, latestNumbers, msbStep] using hfold2
    refine ⟨?_, ?_, ?_, ?_⟩
    · rw [hmax]
      exact Iff.intro (fun h => by cases h) (fun h => by cases h)
    · rw [hmsb]
      exact Iff.intro (fun h => by cases h) (fun h => by cases h)
    · intro n hn
      rw [hmax] at hn
      rcases Option.some.injEq .. ▸ hn with rfl
      constructor
      · rcases hmem with rfl | hk
        · simp [latestNumbers]
        · simp only [latestNumbers, List.map_cons, List.mem_cons]
          exact Or.inr hk
      · intro t ht
        rcases List.mem_cons.mp ht with rfl | ht2
        · exact hle
        · exact hall t ht2
    · intro n hn
      rw [hmsb] at hn
      rcases Option.some.injEq .. ▸ hn with rfl
      constructor
      · rcases hmem2 with rfl | hk
        · simp [latestNumbers]
        · simp only [latestNumbers, List.map_cons, List.mem_cons]
          exact Or.inr hk
      · intro x hx
        simp only [latestNumbers, List.map_cons, List.mem_cons] at hx
        rcases hx with rfl | hx2
        · exact hge2
        · exact hall2 x hx2

/-- Witness for C6 on the spec's S6 tie-break scenario: the plurality of
`[100, 100, 99, 99, 101]` is tied between 100 and 99 and resolves to the
lowest, 99, which the theorem certifies as at least as good as every input
value. -/
theorem block_choice_policies_contract_witness :
    mostSyncedBlocks (List.map
        (fun n => { indexer := { id := "i", address := none }, deployment := "QmA",
                    network := "mainnet", latest_block := { number := n, hash := none },
                    earliest_block_number := 0 })
        [100, 100, 99, 99, 101]) = some 99 ∧
    (99 ∈ latestNumbers (List.map
        (fun n => { indexer := { id := "i", address := none }, deployment := "QmA",
                    network := "mainnet", latest_block := { number := n, hash := none },
                    earliest_block_number := 0 })
        [100, 100, 99, 99, 101]) ∧
      ∀ x ∈ latestNumbers (List.map
          (fun n => { indexer := { id := "i", address := none }, deployment := "QmA",
                      network := "mainnet", latest_block := { number := n, hash := none },
                      earliest_block_number := 0 })
          [100, 100, 99, 99, 101]),
        pluralityGe (latestNumbers (List.map
          (fun n => { indexer := { id := "i", address := none }, deployment := "QmA",
                      network := "mainnet", latest_block := { number := n, hash := none },
                      earliest_block_number := 0 })
          [100, 100, 99, 99, 101])) 99 x) :=
  ⟨by decide,
    (block_choice_policies_contract (List.map
        (fun n => { indexer := { id := "i", address := none }, deployment := "QmA",
                    network := "mainnet", latest_block := { number := n, hash := none },
                    earliest_block_number := 0 })
        [100, 100, 99, 99, 101])).2.2.2 99 (by decide)⟩

/-- The status lists of the indexers whose queries succeeded, in order. -/
def okStatusLists (results : List (Indexer × StatusQueryResult)) :
    List (List IndexingStatus) :=
  results.filterMap
    (fun r =>
      match r.2 with
      | .ok statuses => some statuses
      | .error _ => none)

/-- The number of succeeded queries. -/
def okCountOf (results : List (Indexer × StatusQueryResult)) : Nat :=
  results.countP
    (fun r =>
      match r.2 with
      | .ok _ => true
      | .error _ => false)

/-- The number of failed queries. -/
def errCountOf (results : List (Indexer × StatusQueryResult)) : Nat :=
  results.countP
    (fun r =>
      match r.2 with
      | .ok _ => false
      | .error _ => true)

/-- The fold of the status-collector loop, from an arbitrary accumulator. -/
theorem foldl_statusFoldStep (results : List (Indexer × StatusQueryResult)) :
    ∀ acc : List IndexingStatus × Nat × Nat,
      results.foldl statusFoldStep acc =
        (acc.1 ++ (okStatusLists results).flatten,
          acc.2.1 + okCountOf results, acc.2.2 + errCountOf results) := by
  induction results with
  | nil =>
    intro acc
    simp [okStatusLists, okCountOf, errCountOf]
  | cons r rest ih =>
    intro acc
    rcases hr : r.2 with e | statuses
    · rw [List.foldl_cons, statusFoldStep, hr, ih]
      simp only [okStatusLists, okCountOf, errCountOf, List.filterMap_cons,
        List.countP_cons, hr, Prod.mk.injEq]
      refine ⟨by simp, by simp, by simp; omega⟩
    · rw [List.foldl_cons, statusFoldStep, hr, ih]
      simp only [okStatusLists, okCountOf, errCountOf, List.filterMap_cons,
        List.countP_cons, hr, Prod.mk.injEq]
      refine ⟨by simp [List.append_assoc], by simp; omega, by simp⟩

/-- Successes and failures partition the per-indexer results. -/
theorem okCount_add_errCount (results : List (Indexer × StatusQueryResult)) :
    okCountOf results + errCountOf results = results.length := by
  induction results with
  | nil => rfl
  | cons r rest ih =>
    simp only [okCountOf, errCountOf, List.countP_cons, List.length_cons] at ih ⊢
    rcases hr : r.2 with e | statuses <;> simp only [hr] <;> simp <;> omega

/-- Claim C7: the status collector never propagates a per-indexer failure:
it is a total function whose returned status list is exactly the
concatenation (flattening) of the status lists of the indexers whose queries
succeeded; the success counter counts exactly the successes, the failure
counter exactly the failures, and their sum is the number of input indexers
(the `assert_eq!` of the source). -/
theorem status_collector_flattens_successes
    (results : List (Indexer × StatusQueryResult)) :
    (query_indexing_statuses results).1 = (okStatusLists results).flatten ∧
    (query_indexing_statuses results).2.1 = okCountOf results ∧
    (query_indexing_statuses results).2.2 = errCountOf results ∧
    (query_indexing_statuses results).2.1 + (query_indexing_statuses results).2.2 =
      results.length := by
  rw [query_indexing_statuses, foldl_statusFoldStep results ([], 0, 0)]
  refine ⟨by simp, by simp, by simp, ?_⟩
  simpa using okCount_add_errCount results

/-- Decoding the digit emitted for a value below 16 recovers the value. -/
theorem digitVal_digitChar_range :
    ∀ n ∈ List.range 16, hexDigitVal? (hexDigitChar n) = some n := by
  decide

/-- Decoding the digit emitted for a value below 16 recovers the value. -/
theorem digitVal_digitChar (n : Nat) (h : n < 16) :
    hexDigitVal? (hexDigitChar n) = some n :=
  digitVal_digitChar_range n (List.mem_range.mpr h)

/-- Every character the encoder can emit is a lowercase hex digit. -/
theorem hexDigitChar_lower (n : Nat) : isLowerHexDigit (hexDigitChar n) = true := by
  rcases Nat.lt_or_ge n 16 with h | h
  · have : ∀ m ∈ List.range 16, isLowerHexDigit (hexDigitChar m) = true := by decide
    exact this n (List.mem_range.mpr h)
  · rw [hexDigitChar, List.getD_eq_default]
    · decide
    · exact h

/-- A lowercase hex digit decodes to a value below 16 that re-encodes to the
same character. -/
theorem lower_hex_char_val (c : Char) (hc : isLowerHexDigit c = true) :
    ∃ n, hexDigitVal? c = some n ∧ n < 16 ∧ hexDigitChar n = c := by
  have hmem : c ∈ hexChars := by
    simpa [isLowerHexDigit] using hc
  fin_cases hmem
  · exact ⟨0, by decide, by decide, by decide⟩
  · exact ⟨1, by decide, by decide, by decide⟩
  · exact ⟨2, by decide, by decide, by decide⟩
  · exact ⟨3, by decide, by decide, by decide⟩
  · exact ⟨4, by decide, by decide, by decide⟩
  · exact ⟨5, by decide, by decide, by decide⟩
  · exact ⟨6, by decide, by decide, by decide⟩
  · exact ⟨7, by decide, by decide, by decide⟩
  · exact ⟨8, by decide, by decide, by decide⟩
  · exact ⟨9, by decide, by decide, by decide⟩
  · exact ⟨10, by decide, by decide, by decide⟩
  · exact ⟨11, by decide, by decide, by decide⟩
  · exact ⟨12, by decide, by decide, by decide⟩
  · exact ⟨13, by decide, by decide, by decide⟩
  · exact ⟨14, by decide, by decide, by decide⟩
  · exact ⟨15, by decide, by decide, by decide⟩

/-- Every character of an encoded byte string is a lowercase hex digit. -/
theorem hexEncode_all_lower :
    ∀ bytes : List Nat, ∀ c ∈ hexEncode bytes, isLowerHexDigit c = true := by
  intro bytes
  induction bytes with
  | nil => intro c hc; cases hc
  | cons b bs ih =>
    intro c hc
    rw [hexEncode] at hc
    rcases List.mem_cons.mp hc with rfl | hc2
    · exact hexDigitChar_lower _
    · rcases List.mem_cons.mp hc2 with rfl | hc3
      · exact hexDigitChar_lower _
      · exact ih c hc3

/-- A string of lowercase hex digits has no leading `"0x"` to strip. -/
theorem trimStartMatches0x_of_lower (s : List Char)
    (hs : ∀ c ∈ s, isLowerHexDigit c = true) : trimStartMatches0x s = s := by
  rcases s with _ | ⟨c1, _ | ⟨c2, rest⟩⟩
  · rfl
  · rfl
  · have hc2 : isLowerHexDigit c2 = true :=
      hs c2 (List.mem_cons_of_mem _ (List.mem_cons_self _ _))
    have hne : ¬(c1 = '0' ∧ c2 = 'x') := by
      rintro ⟨-, rfl⟩
      exact absurd hc2 (by decide)
    rw [trimStartMatches0x, if_neg hne]

/-- Decoding the hex encoding of a byte vector yields the vector back. -/
theorem hexDecode_hexEncode :
    ∀ bytes : List Nat, (∀ b ∈ bytes, b < 256) →
      hexDecode (hexEncode bytes) = some bytes := by
  intro bytes
  induction bytes with
  | nil => intro _; rfl
  | cons b bs ih =>
    intro hall
    have hb : b < 256 := hall b (List.mem_cons_self _ _)
    have h1 : hexDigitVal? (hexDigitChar (b / 16)) = some (b / 16) :=
      digitVal_digitChar _ (by omega)
    have h2 : hexDigitVal? (hexDigitChar (b % 16)) = some (b % 16) :=
      digitVal_digitChar _ (by omega)
    rw [hexEncode, hexDecode, h1, h2,
      ih (fun x hx => hall x (List.mem_cons_of_mem _ hx))]
    show some ((b / 16 * 16 + b % 16) :: bs) = some (b :: bs)
    have hrecompose : b / 16 * 16 + b % 16 = b := by omega
    rw [hrecompose]

/-- Encoding the decoding of an even-length lowercase hex string yields the
string back (bounded recursion on the length). -/
theorem hexEncode_hexDecode_aux :
    ∀ (n : Nat) (s : List Char), s.length ≤ n →
      (∀ c ∈ s, isLowerHexDigit c = true) → s.length % 2 = 0 →
      ∃ bytes, hexDecode s = some bytes ∧ hexEncode bytes = s := by
  intro n
  induction n with
  | zero =>
    intro s hlen _ _
    have hnil : s = [] := List.length_eq_zero.mp (Nat.le_zero.mp hlen)
    exact hnil ▸ ⟨[], rfl, rfl⟩
  | succ n ih =>
    intro s hlen hhex heven
    rcases s with _ | ⟨c1, _ | ⟨c2, rest⟩⟩
    · exact ⟨[], rfl, rfl⟩
    · exact absurd heven (by simp)
    · have hc1 : isLowerHexDigit c1 = true := hhex c1 (List.mem_cons_self _ _)
      have hc2 : isLowerHexDigit c2 = true :=
        hhex c2 (List.mem_cons_of_mem _ (List.mem_cons_self _ _))
      rcases lower_hex_char_val c1 hc1 with ⟨n1, hv1, hn1, hchar1⟩
      rcases lower_hex_char_val c2 hc2 with ⟨n2, hv2, hn2, hchar2⟩
      have hrestlen : rest.length ≤ n := by
        simp only [List.length_cons] at hlen
        omega
      have hresteven : rest.length % 2 = 0 := by
        simp only [List.length_cons] at heven
        omega
      rcases ih rest hrestlen
          (fun c hc => hhex c (List.mem_cons_of_mem _ (List.mem_cons_of_mem _ hc)))
          hresteven with ⟨bs, hdec, henc⟩
      refine ⟨(n1 * 16 + n2) :: bs, ?_, ?_⟩
      · rw [hexDecode, hv1, hv2, hdec]
      · have hdiv : (n1 * 16 + n2) / 16 = n1 := by omega
        have hmod : (n1 * 16 + n2) % 16 = n2 := by omega
        rw [hexEncode, hdiv, hmod, hchar1, hchar2, henc]

/-- Counterexample to claim C9: the hex decoding of `"0xAA"` is the one-byte
vector `[0xAA]` — the decoder enforces no 32-byte length — and re-encoding it
yields `"aa"`, not the original string, so encode-after-decode is not the
identity on `0x`-prefixed (or uppercase) inputs. -/
theorem bytes32_hex_not_involutive :
    bytes32TryFrom ['0', 'x', 'A', 'A'] = some [170] ∧
    bytes32Display [170] = ['a', 'a'] ∧
    ['a', 'a'] ≠ ['0', 'x', 'A', 'A'] ∧
    bytes32TryFrom ['a', 'a'] = some [170] ∧
    [170].length ≠ 32 := by
  decide

/-- Claim C9 as amended: `Bytes32` holds an arbitrary byte vector (the
decoder accepts any even-length hex string and enforces no 32-byte length),
and the hex round trip holds in the directions the code guarantees: decoding
the display encoding of any byte vector yields the vector back, and encoding
the decoding of a string yields the original string when the string consists
of lowercase hex digits without a `0x` prefix.  PoI values are compared
bytewise (structural equality of the byte vectors). -/
theorem bytes32_hex_roundtrip (bytes : List Nat) (hbytes : ∀ b ∈ bytes, b < 256)
    (s : List Char) (hs : ∀ c ∈ s, isLowerHexDigit c = true)
    (heven : s.length % 2 = 0) :
    bytes32TryFrom (bytes32Display bytes) = some bytes ∧
    ∃ bs, bytes32TryFrom s = some bs ∧ bytes32Display bs = s := by
  constructor
  · rw [bytes32TryFrom, bytes32Display,
      trimStartMatches0x_of_lower _ (hexEncode_all_lower bytes)]
    exact hexDecode_hexEncode bytes hbytes
  · rcases hexEncode_hexDecode_aux s.length s (Nat.le_refl _) hs heven with
      ⟨bs, hdec, henc⟩
    refine ⟨bs, ?_, henc⟩
    rw [bytes32TryFrom, trimStartMatches0x_of_lower s hs]
    exact hdec

/-- Witness for C9's amended theorem: the byte vector `[0, 255]` and the
string `"ab"`. -/
theorem bytes32_hex_roundtrip_witness :
    bytes32TryFrom (bytes32Display [0, 255]) = some [0, 255] ∧
    ∃ bs, bytes32TryFrom ['a', 'b'] = some bs ∧ bytes32Display bs = ['a', 'b'] :=
  bytes32_hex_roundtrip [0, 255] (by decide) ['a', 'b'] (by decide) (by decide)

end Graphix
